import Mathlib

/-!
Verification of the natural-language specification of epub_to_txt.py, an
EPUB-to-plain-text converter.  The program is embedded shallowly: pure string
manipulation is modelled over Lean strings (lists of characters), the EPUB
container reader and the HTML parser are external collaborators and appear
only through the data they deliver (a package of items with a spine, and a
parsed document tree), and file input and output is abstracted away.  All
definitions are executable.
-/

namespace EpubToTxt

/-- Characters treated as whitespace by the embedding of Python str.strip
(ASCII whitespace; the data handled by this program contains no other
whitespace characters). -/
def isPyWs (c : Char) : Bool :=
  c == ' ' || c == '\t' || c == '\n' || c == '\r' || c == '\x0b' || c == '\x0c'

/-- Embedding of Python str.strip with no arguments, at the character-list
level: remove leading and trailing whitespace. -/
def stripChars (l : List Char) : List Char :=
  ((l.dropWhile isPyWs).reverse.dropWhile isPyWs).reverse

/-- Python str.strip on strings. -/
def pyStrip (s : String) : String := ⟨stripChars s.data⟩

/-- Embedding of Python sep.join(parts). -/
def pyJoin (sep : String) : List String → String
  | [] => ""
  | [x] => x
  | x :: y :: xs => x ++ sep ++ pyJoin sep (y :: xs)

/-- Character-level splitting at newline characters; returns the chunks
between newlines (always one more chunk than there are newlines). -/
def splitNl : List Char → List (List Char)
  | [] => [[]]
  | c :: rest =>
    let r := splitNl rest
    if c = '\n' then [] :: r
    else (c :: r.headI) :: r.tail

/-- Embedding of Python str.splitlines, restricted to the newline character
(the only line separator this program produces or consumes): split at every
newline and do not report a final empty chunk after a trailing newline. -/
def pySplitlines (s : String) : List String :=
  let parts := (splitNl s.data).map fun l => (⟨l⟩ : String)
  if parts.getLast? = some "" then parts.dropLast else parts

/-- Document tree node, as produced by the external HTML parser: either a
text node or an element with a tag, a class list and children. -/
inductive Node where
  | text (s : String)
  | el (tag : String) (classes : List String) (children : List Node)

mutual

/-- Embedding of lines 11-12 of epub_to_txt.py: every element carrying the
empty-line class has its contents replaced by a single newline text node
(soup.select of the marker class followed by assignment to .string). -/
def markGaps : Node → Node
  | .text s => .text s
  | .el tag classes children =>
    if "empty-line" ∈ classes then .el tag classes [.text "\n"]
    else .el tag classes (markGapsList children)

/-- markGaps applied to each node of a list. -/
def markGapsList : List Node → List Node
  | [] => []
  | n :: ns => markGaps n :: markGapsList ns

end

mutual

/-- All text-node contents of a tree in document order (the strings that the
external get_text concatenates). -/
def texts : Node → List String
  | .text s => [s]
  | .el _ _ children => textsList children

/-- texts of every node of a list, concatenated in order. -/
def textsList : List Node → List String
  | [] => []
  | n :: ns => texts n ++ textsList ns

end

/-- Embedding of soup.get_text with a separator and strip=False: all text
nodes joined by the separator. -/
def get_text (sep : String) (soup : List Node) : String :=
  pyJoin sep (textsList soup)

/-- One step of the cleaning loop of lines 19-27 of epub_to_txt.py; the
state is the accumulator and the previous-line-was-blank flag. -/
def cleanFold (st : List String × Bool) (line : String) : List String × Bool :=
  let stripped := pyStrip line
  if stripped = "" then
    (if st.1 ≠ [] ∧ st.2 = false then st.1 ++ [""] else st.1, true)
  else
    (st.1 ++ [stripped], false)

/-- The cleaning loop of lines 17-27 run over all raw lines, returning the
accumulated cleaned lines. -/
def cleanLines (lines : List String) : List String :=
  (lines.foldl cleanFold ([], false)).1

/-- Embedding of clean_text_preserving_gaps (lines 9-29): mark gap elements,
extract text with newline separators, split into raw lines, run the
blank-collapsing loop, join with newlines and strip the result. -/
def clean_text_preserving_gaps (soup : List Node) : String :=
  let marked := markGapsList soup
  let raw_text := get_text "\n" marked
  let lines := pySplitlines raw_text
  pyStrip (pyJoin "\n" (cleanLines lines))

/-- The ebooklib constant ITEM_DOCUMENT. -/
def ITEM_DOCUMENT : Nat := 9

/-- A package item (one manifest resource): identifier, type tag and parsed
content (parsing the raw bytes is done by the external HTML parser). -/
structure Item where
  id : String
  itemType : Nat
  content : List Node

/-- A spine entry is either a bare identifier or a composite record (Python
tuple) whose first element is the identifier. -/
inductive SpineEntry where
  | bare (id : String)
  | tup (id : String) (rest : List String)
deriving DecidableEq

/-- Line 38 of epub_to_txt.py: the identifier of a spine entry, taking the
first element when the entry is a tuple. -/
def SpineEntry.entryId : SpineEntry → String
  | .bare i => i
  | .tup i _ => i

/-- The parsed EPUB package: the declared spine and the manifest items in
their natural enumeration order. -/
structure Package where
  spine : List SpineEntry
  items : List Item

/-- ebooklib get_item_with_id: the first item with the given identifier, if
any. -/
def Package.get_item_with_id (b : Package) (uid : String) : Option Item :=
  b.items.find? (fun it => it.id == uid)

/-- ebooklib get_items_of_type: the items of the given type, in enumeration
order. -/
def Package.get_items_of_type (b : Package) (t : Nat) : List Item :=
  b.items.filter (fun it => it.itemType == t)

/-- One iteration of the spine loop (lines 37-42); the state is the set of
seen identifiers (kept as a list, queried only for membership) and the items
emitted so far. -/
def spineStep (b : Package) (st : List String × List Item) (entry : SpineEntry) :
    List String × List Item :=
  let item_id := entry.entryId
  match b.get_item_with_id item_id with
  | some item =>
    if item.itemType == ITEM_DOCUMENT then (item_id :: st.1, st.2 ++ [item]) else st
  | none => st

/-- The spine loop of lines 34-42: the final seen set and the emitted items. -/
def spinePass (b : Package) : List String × List Item :=
  b.spine.foldl (spineStep b) ([], [])

/-- Embedding of iter_documents_in_order (lines 32-47): the spine pass
followed by all document items whose identifier was not seen. -/
def iter_documents_in_order (b : Package) : List Item :=
  (spinePass b).2 ++
    (b.get_items_of_type ITEM_DOCUMENT).filter (fun it => !(spinePass b).1.contains it.id)

/-- Declarative view of the resolution of one spine entry: the item it
contributes, when its identifier resolves to a document-type item. -/
def resolveDoc (b : Package) (e : SpineEntry) : Option Item :=
  match b.get_item_with_id e.entryId with
  | some item => if item.itemType == ITEM_DOCUMENT then some item else none
  | none => none

/-- Embedding of epub_to_txt (lines 49-59) up to file input and output: the
text written for a package (reading the EPUB and writing the file are
external). -/
def epub_to_txt (book : Package) : String :=
  let text_content :=
    (iter_documents_in_order book).foldl
      (fun acc item => acc ++ [clean_text_preserving_gaps item.content]) []
  pyJoin "\n\n" text_content

/-- Python code point comparison of character lists (string less-or-equal). -/
def lexLe : List Char → List Char → Bool
  | [], _ => true
  | _ :: _, [] => false
  | a :: as, b :: bs =>
    if a.toNat < b.toNat then true
    else if b.toNat < a.toNat then false
    else lexLe as bs

/-- Python string less-or-equal (code point lexicographic order). -/
def pyLe (a b : String) : Prop := lexLe a.data b.data = true

instance : DecidableRel pyLe := fun a b => by unfold pyLe; infer_instance

/-- Python str.lower restricted to ASCII (sufficient for extension tests). -/
def pyLower (s : String) : String := ⟨s.data.map Char.toLower⟩

/-- Index of the last dot of a name, if any (Python str.rfind). -/
def rfindDot (l : List Char) : Option Nat :=
  (l.reverse.findIdx? (fun c => c == '.')).map (fun j => l.length - 1 - j)

/-- pathlib PurePath.suffix for a plain file name: the part from the last
dot on, unless that dot is the first or the last character. -/
def path_suffix (name : String) : String :=
  match rfindDot name.data with
  | some i => if 0 < i ∧ i < name.data.length - 1 then ⟨name.data.drop i⟩ else ""
  | none => ""

/-- pathlib PurePath.stem for a plain file name: the part before the last
dot, unless that dot is the first or the last character. -/
def path_stem (name : String) : String :=
  match rfindDot name.data with
  | some i => if 0 < i ∧ i < name.data.length - 1 then ⟨name.data.take i⟩ else name
  | none => name

/-- A directory entry as delivered by iterdir: a name and whether the entry
is a regular file. -/
structure DirEntry where
  name : String
  isFile : Bool
deriving DecidableEq

/-- Lines 73-75 of epub_to_txt.py: the selected EPUB file names, sorted
ascending (Python sorted is a stable ascending sort; insertion sort realizes
it). -/
def epub_files (entries : List DirEntry) : List String :=
  List.insertionSort pyLe
    ((entries.filter (fun p => p.isFile && (pyLower (path_suffix p.name) == ".epub"))).map
      DirEntry.name)

/-- Line 82 of epub_to_txt.py: the output file name derived from an input
file name. -/
def outName (f : String) : String := path_stem f ++ ".txt"

/-- Result of convert_directory, with the processing of each file abstracted
to the list of (input, output) conversion jobs it performs in order. -/
inductive BatchResult where
  | inputError
  | noFiles
  | converted (jobs : List (String × String))
deriving DecidableEq

/-- Embedding of convert_directory (lines 64-83): the input-directory check,
the empty-selection message branch, and the ordered conversion jobs. -/
def convert_directory (isDir : Bool) (entries : List DirEntry) : BatchResult :=
  if !isDir then .inputError
  else
    let files := epub_files entries
    if files.isEmpty then .noFiles
    else .converted (files.map (fun f => (f, outName f)))

/-- The conversion jobs of a batch run over the given directory listing. -/
def batchJobs (entries : List DirEntry) : List (String × String) :=
  (epub_files entries).map (fun f => (f, outName f))

/-- The input whose write to the given target file comes last in job order;
since each write truncates the target, this is the input whose text
survives. -/
def lastWriter (jobs : List (String × String)) (t : String) : Option String :=
  ((jobs.filter (fun j => j.2 == t)).getLast?).map Prod.fst

/-- Recursive form of the cleaning loop: the flag ne records whether the
accumulator is nonempty, pb is the previous-line-was-blank flag. -/
def cleanRec (ne pb : Bool) : List String → List String
  | [] => []
  | line :: rest =>
    let stripped := pyStrip line
    if stripped = "" then
      if ne && !pb then "" :: cleanRec ne true rest else cleanRec ne true rest
    else stripped :: cleanRec true false rest

/-- Character-level join with a newline between consecutive chunks. -/
def joinNl : List (List Char) → List Char
  | [] => []
  | [x] => x
  | x :: y :: xs => x ++ '\n' :: joinNl (y :: xs)

section StringToolkit

lemma str_ext {a b : String} (h : a.data = b.data) : a = b := by
  cases a; cases b; cases h; rfl

lemma str_ne_empty_iff {s : String} : s ≠ "" ↔ s.data ≠ [] := by
  constructor
  · intro h hd
    exact h (str_ext (by simpa using hd))
  · intro h hd
    exact h (by simp [hd])

lemma pyJoin_nl_data : ∀ l : List String, (pyJoin "\n" l).data = joinNl (l.map String.data)
  | [] => rfl
  | [x] => rfl
  | x :: y :: xs => by
    show (x ++ "\n" ++ pyJoin "\n" (y :: xs)).data = _
    rw [String.data_append, String.data_append, pyJoin_nl_data (y :: xs)]
    simp [joinNl]

lemma head?_dropWhile {p : α → Bool} :
    ∀ {l : List α} {c : α}, (l.dropWhile p).head? = some c → p c = false := by
  intro l
  induction l with
  | nil => intro c h; simp [List.dropWhile] at h
  | cons a l ih =>
    intro c h
    rw [List.dropWhile_cons] at h
    by_cases hp : p a
    · exact ih (by simpa [hp] using h)
    · simp [hp] at h
      subst h
      simpa using hp

lemma dropWhile_eq_self_of_head {p : α → Bool} {l : List α} {c : α}
    (hc : l.head? = some c) (hp : p c = false) : l.dropWhile p = l := by
  cases l with
  | nil => rfl
  | cons a t =>
    simp at hc
    rw [List.dropWhile_cons, hc] at *
    simp [hp]

lemma mem_stripChars {l : List Char} {c : Char} (h : c ∈ stripChars l) : c ∈ l := by
  unfold stripChars at h
  rw [List.mem_reverse] at h
  have h₂ := (List.dropWhile_suffix isPyWs).sublist.mem h
  rw [List.mem_reverse] at h₂
  exact (List.dropWhile_suffix isPyWs).sublist.mem h₂

lemma stripChars_getLast? {l : List Char} {c : Char}
    (h : (stripChars l).getLast? = some c) : isPyWs c = false := by
  unfold stripChars at h
  rw [List.getLast?_reverse] at h
  exact head?_dropWhile h

lemma stripChars_head? {l : List Char} {c : Char}
    (h : (stripChars l).head? = some c) : isPyWs c = false := by
  unfold stripChars at h
  rw [List.head?_reverse] at h
  obtain ⟨t, ht⟩ := List.dropWhile_suffix (l := (l.dropWhile isPyWs).reverse) isPyWs
  have hne : ((l.dropWhile isPyWs).reverse.dropWhile isPyWs) ≠ [] := by
    intro hnil; rw [hnil] at h; simp at h
  have h2 : ((l.dropWhile isPyWs).reverse).getLast? = some c := by
    rw [← ht, List.getLast?_append_of_ne_nil t hne]; exact h
  rw [List.getLast?_reverse] at h2
  exact head?_dropWhile h2

lemma stripChars_eq_self {l : List Char} {c d : Char}
    (hc : l.head? = some c) (hwc : isPyWs c = false)
    (hd : l.getLast? = some d) (hwd : isPyWs d = false) : stripChars l = l := by
  unfold stripChars
  rw [dropWhile_eq_self_of_head hc hwc]
  rw [dropWhile_eq_self_of_head (by rw [List.head?_reverse]; exact hd) hwd]
  exact List.reverse_reverse l

lemma stripChars_idem (l : List Char) : stripChars (stripChars l) = stripChars l := by
  cases hs : stripChars l with
  | nil => rfl
  | cons a t =>
    have hhead : (stripChars l).head? = some a := by rw [hs]; rfl
    have hlast : ∃ d, (stripChars l).getLast? = some d := by
      rw [hs]; exact ⟨(a :: t).getLast (by simp), List.getLast?_eq_getLast _ _⟩
    obtain ⟨d, hd⟩ := hlast
    rw [← hs]
    exact stripChars_eq_self hhead (stripChars_head? hhead) hd (stripChars_getLast? hd)

lemma pyStrip_idem (s : String) : pyStrip (pyStrip s) = pyStrip s :=
  str_ext (stripChars_idem s.data)

end StringToolkit

section SplitJoin

lemma splitNl_ne_nil : ∀ l : List Char, splitNl l ≠ []
  | [] => by simp [splitNl]
  | c :: rest => by
    simp only [splitNl]
    split <;> simp

lemma splitNl_cons_shape (l : List Char) : ∃ m ms, splitNl l = m :: ms := by
  cases hs : splitNl l with
  | nil => exact absurd hs (splitNl_ne_nil l)
  | cons m ms => exact ⟨m, ms, rfl⟩

lemma splitNl_cons_of_ne (c : Char) (rest : List Char) (hc : c ≠ '\n')
    {m : List Char} {ms : List (List Char)} (hr : splitNl rest = m :: ms) :
    splitNl (c :: rest) = (c :: m) :: ms := by
  simp only [splitNl, hr, if_neg hc]
  rfl

lemma splitNl_cons_nl (rest : List Char) : splitNl ('\n' :: rest) = [] :: splitNl rest := by
  simp [splitNl]

lemma mem_splitNl_no_nl : ∀ (l : List Char), ∀ m ∈ splitNl l, '\n' ∉ m := by
  intro l
  induction l with
  | nil =>
    intro m hm
    have hme : m = [] := by simpa [splitNl] using hm
    simp [hme]
  | cons c rest ih =>
    intro m hm
    by_cases hc : c = '\n'
    · subst hc
      rw [splitNl_cons_nl] at hm
      rcases List.mem_cons.mp hm with h | h
      · simp [h]
      · exact ih m h
    · obtain ⟨m₀, ms₀, hr⟩ := splitNl_cons_shape rest
      rw [splitNl_cons_of_ne c rest hc hr] at hm
      rcases List.mem_cons.mp hm with h | h
      · subst h
        intro hmem
        rcases List.mem_cons.mp hmem with h | h
        · exact hc h.symm
        · exact ih m₀ (by rw [hr]; exact List.mem_cons_self _ _) h
      · exact ih m (by rw [hr]; exact List.mem_cons_of_mem _ h)

lemma splitNl_no_nl : ∀ (l : List Char), '\n' ∉ l → splitNl l = [l] := by
  intro l
  induction l with
  | nil => intro _; rfl
  | cons c rest ih =>
    intro h
    have hc : c ≠ '\n' := fun hh => h (by rw [hh]; exact List.mem_cons_self _ _)
    have hrest : '\n' ∉ rest := fun hh => h (List.mem_cons_of_mem _ hh)
    exact splitNl_cons_of_ne c rest hc (ih hrest)

lemma splitNl_append_cons : ∀ (a t : List Char), '\n' ∉ a →
    splitNl (a ++ '\n' :: t) = a :: splitNl t := by
  intro a
  induction a with
  | nil =>
    intro t _
    show splitNl ('\n' :: t) = [] :: splitNl t
    simp [splitNl]
  | cons c a ih =>
    intro t h
    have hc : c ≠ '\n' := fun hh => h (by rw [hh]; exact List.mem_cons_self _ _)
    have ha : '\n' ∉ a := fun hh => h (List.mem_cons_of_mem _ hh)
    exact splitNl_cons_of_ne c (a ++ '\n' :: t) hc (ih t ha)

lemma joinNl_concat_nil : ∀ (l : List (List Char)), l ≠ [] →
    joinNl (l ++ [[]]) = joinNl l ++ ['\n'] := by
  intro l
  induction l with
  | nil => intro h; exact absurd rfl h
  | cons x xs ih =>
    intro _
    cases xs with
    | nil => rfl
    | cons y ys =>
      show joinNl (x :: (y :: ys) ++ [[]]) = (x ++ '\n' :: joinNl (y :: ys)) ++ ['\n']
      have : joinNl (x :: (y :: ys ++ [[]])) = x ++ '\n' :: joinNl (y :: ys ++ [[]]) := by
        cases ys <;> rfl
      rw [List.cons_append, this, ih (by simp)]
      simp

lemma splitNl_joinNl : ∀ (l : List (List Char)), (∀ m ∈ l, '\n' ∉ m) → l ≠ [] →
    splitNl (joinNl l) = l := by
  intro l
  induction l with
  | nil => intro _ h; exact absurd rfl h
  | cons x xs ih =>
    intro hm _
    cases xs with
    | nil => exact splitNl_no_nl x (hm x (List.mem_cons_self _ _))
    | cons y ys =>
      show splitNl (x ++ '\n' :: joinNl (y :: ys)) = x :: y :: ys
      rw [splitNl_append_cons x _ (hm x (List.mem_cons_self _ _))]
      rw [ih (fun m hmem => hm m (List.mem_cons_of_mem _ hmem)) (by simp)]

lemma joinNl_head? (x : List Char) (l : List (List Char)) (hx : x ≠ []) :
    (joinNl (x :: l)).head? = x.head? := by
  cases l with
  | nil => rfl
  | cons y ys =>
    show (x ++ '\n' :: joinNl (y :: ys)).head? = x.head?
    exact List.head?_append_of_ne_nil _ hx

lemma getLast?_cons_of_ne_nil (c : α) {J : List α} (h : J ≠ []) :
    (c :: J).getLast? = J.getLast? := by
  cases J with
  | nil => exact absurd rfl h
  | cons a t => simp [List.getLast?_cons_cons]

lemma joinNl_ne_nil_of_two : ∀ (y : List Char) (ys : List (List Char)),
    y ≠ [] ∨ ys ≠ [] → joinNl (y :: ys) ≠ [] := by
  intro y ys h
  cases ys with
  | nil =>
    rcases h with h | h
    · simpa [joinNl] using h
    · exact absurd rfl h
  | cons z zs =>
    show y ++ '\n' :: joinNl (z :: zs) ≠ []
    simp

lemma joinNl_getLast? : ∀ (l : List (List Char)) (x : List Char),
    l.getLast? = some x → x ≠ [] → (joinNl l).getLast? = x.getLast? := by
  intro l
  induction l with
  | nil => intro x hx; simp at hx
  | cons a xs ih =>
    intro x hx hxne
    cases xs with
    | nil =>
      simp at hx
      subst hx
      rfl
    | cons y ys =>
      rw [getLast?_cons_of_ne_nil a (by simp)] at hx
      have hj : joinNl (y :: ys) ≠ [] := by
        cases ys with
        | nil =>
          have hyx : y = x := by simpa using hx
          show joinNl [y] ≠ []
          rw [show joinNl [y] = y from rfl, hyx]
          exact hxne
        | cons z zs =>
          show y ++ '\n' :: joinNl (z :: zs) ≠ []
          simp
      show (a ++ '\n' :: joinNl (y :: ys)).getLast? = x.getLast?
      rw [List.getLast?_append_of_ne_nil a (by simp)]
      rw [getLast?_cons_of_ne_nil '\n' hj]
      exact ih x hx hxne

end SplitJoin

section CleanLoop

lemma cleanRec_cons_blank (ne pb : Bool) (line : String) (rest : List String)
    (hs : pyStrip line = "") :
    cleanRec ne pb (line :: rest) =
      if ne && !pb then "" :: cleanRec ne true rest else cleanRec ne true rest := by
  simp [cleanRec, hs]

lemma cleanRec_cons_text (ne pb : Bool) (line : String) (rest : List String)
    (hs : ¬pyStrip line = "") :
    cleanRec ne pb (line :: rest) = pyStrip line :: cleanRec true false rest := by
  simp [cleanRec, hs]

lemma foldl_cleanFold : ∀ (ls : List String) (acc : List String) (b : Bool),
    (ls.foldl cleanFold (acc, b)).1 = acc ++ cleanRec (!acc.isEmpty) b ls := by
  intro ls
  induction ls with
  | nil => intro acc b; simp [cleanRec]
  | cons line rest ih =>
    intro acc b
    show (rest.foldl cleanFold (cleanFold (acc, b) line)).1 = _
    by_cases hs : pyStrip line = ""
    · by_cases ha : acc = []
      · subst ha
        have hstep : cleanFold (([] : List String), b) line = ([], true) := by
          simp [cleanFold, hs]
        rw [hstep, ih [] true, cleanRec_cons_blank _ _ _ _ hs]
        simp
      · have hane : (!acc.isEmpty) = true := by simpa using ha
        cases b with
        | false =>
          have hstep : cleanFold (acc, false) line = (acc ++ [""], true) := by
            simp [cleanFold, hs, ha]
          rw [hstep, ih (acc ++ [""]) true, cleanRec_cons_blank _ _ _ _ hs, hane,
            show (!(acc ++ [""]).isEmpty) = true by simp]
          simp
        | true =>
          have hstep : cleanFold (acc, true) line = (acc, true) := by
            simp [cleanFold, hs]
          rw [hstep, ih acc true, cleanRec_cons_blank _ _ _ _ hs, hane]
          simp
    · have hstep : cleanFold (acc, b) line = (acc ++ [pyStrip line], false) := by
        simp [cleanFold, hs]
      rw [hstep, ih (acc ++ [pyStrip line]) false, cleanRec_cons_text _ _ _ _ hs,
        show (!(acc ++ [pyStrip line]).isEmpty) = true by simp]
      simp

lemma cleanLines_eq_cleanRec (ls : List String) : cleanLines ls = cleanRec false false ls := by
  show (ls.foldl cleanFold ([], false)).1 = _
  rw [foldl_cleanFold ls [] false]
  rfl

lemma mem_cleanRec : ∀ (ls : List String) (ne pb : Bool) (x : String),
    x ∈ cleanRec ne pb ls → x = "" ∨ ∃ raw ∈ ls, x = pyStrip raw ∧ x ≠ "" := by
  intro ls
  induction ls with
  | nil => intro ne pb x hx; simp [cleanRec] at hx
  | cons line rest ih =>
    intro ne pb x hx
    by_cases hs : pyStrip line = ""
    · rw [cleanRec_cons_blank _ _ _ _ hs] at hx
      have hx' : x = "" ∨ x ∈ cleanRec ne true rest := by
        by_cases hb : (ne && !pb) = true
        · rw [if_pos hb] at hx
          rcases List.mem_cons.mp hx with h | h
          · exact Or.inl h
          · exact Or.inr h
        · rw [if_neg hb] at hx
          exact Or.inr hx
      rcases hx' with h | h
      · exact Or.inl h
      · rcases ih ne true x h with h2 | ⟨raw, hraw, h3⟩
        · exact Or.inl h2
        · exact Or.inr ⟨raw, List.mem_cons_of_mem _ hraw, h3⟩
    · rw [cleanRec_cons_text _ _ _ _ hs] at hx
      rcases List.mem_cons.mp hx with h | h
      · exact Or.inr ⟨line, List.mem_cons_self _ _, h, by rw [h]; exact hs⟩
      · rcases ih true false x h with h2 | ⟨raw, hraw, h3⟩
        · exact Or.inl h2
        · exact Or.inr ⟨raw, List.mem_cons_of_mem _ hraw, h3⟩

lemma head?_cleanRec_false : ∀ (ls : List String) (pb : Bool) (x : String),
    (cleanRec false pb ls).head? = some x → x ≠ "" := by
  intro ls
  induction ls with
  | nil => intro pb x hx; simp [cleanRec] at hx
  | cons line rest ih =>
    intro pb x hx
    by_cases hs : pyStrip line = ""
    · rw [cleanRec_cons_blank _ _ _ _ hs] at hx
      simp only [Bool.false_and, if_neg (by simp : ¬(false = true))] at hx
      exact ih true x hx
    · rw [cleanRec_cons_text _ _ _ _ hs] at hx
      simp at hx
      rw [← hx]
      exact hs

lemma head?_cleanRec_pbtrue : ∀ (ls : List String) (ne : Bool) (x : String),
    (cleanRec ne true ls).head? = some x → x ≠ "" := by
  intro ls
  induction ls with
  | nil => intro ne x hx; simp [cleanRec] at hx
  | cons line rest ih =>
    intro ne x hx
    by_cases hs : pyStrip line = ""
    · rw [cleanRec_cons_blank _ _ _ _ hs] at hx
      simp only [Bool.not_true, Bool.and_false, if_neg (by simp : ¬(false = true))] at hx
      exact ih ne x hx
    · rw [cleanRec_cons_text _ _ _ _ hs] at hx
      simp at hx
      rw [← hx]
      exact hs

lemma chain'_cleanRec : ∀ (ls : List String) (ne pb : Bool),
    List.Chain' (fun a b => ¬(a = "" ∧ b = "")) (cleanRec ne pb ls) := by
  intro ls
  induction ls with
  | nil => intro ne pb; simp [cleanRec]
  | cons line rest ih =>
    intro ne pb
    by_cases hs : pyStrip line = ""
    · rw [cleanRec_cons_blank _ _ _ _ hs]
      by_cases hb : (ne && !pb) = true
      · rw [if_pos hb]
        refine List.chain'_cons'.mpr ⟨?_, ih ne true⟩
        intro y hy ⟨_, hy2⟩
        exact head?_cleanRec_pbtrue rest ne y hy hy2
      · rw [if_neg hb]
        exact ih ne true
    · rw [cleanRec_cons_text _ _ _ _ hs]
      refine List.chain'_cons'.mpr ⟨?_, ih true false⟩
      intro y _ ⟨h1, _⟩
      exact hs h1

lemma cleanRec_fixpoint : ∀ (l : List String) (ne pb : Bool),
    (∀ x ∈ l, x ≠ "" → pyStrip x = x) →
    List.Chain' (fun a b => ¬(a = "" ∧ b = "")) l →
    (∀ x, l.head? = some x → x = "" → ne = true ∧ pb = false) →
    cleanRec ne pb l = l := by
  intro l
  induction l with
  | nil => intro ne pb _ _ _; rfl
  | cons x rest ih =>
    intro ne pb hent hchain hhead
    by_cases hx : x = ""
    · obtain ⟨hne, hpb⟩ := hhead x rfl hx
      subst hne; subst hpb; subst hx
      rw [cleanRec_cons_blank _ _ _ _ (by rfl)]
      simp only [Bool.not_false, Bool.and_true, if_pos rfl]
      have hrel := (List.chain'_cons'.mp hchain).1
      have hrest : cleanRec true true rest = rest := by
        refine ih true true (fun y hy => hent y (List.mem_cons_of_mem _ hy))
          (List.chain'_cons'.mp hchain).2 ?_
        intro y hy hye
        exact absurd ⟨rfl, hye⟩ (hrel y hy)
      rw [hrest]
      simp
    · have hpx : pyStrip x = x := hent x (List.mem_cons_self _ _) hx
      rw [cleanRec_cons_text _ _ _ _ (by rw [hpx]; exact hx), hpx]
      have hrest : cleanRec true false rest = rest := by
        refine ih true false (fun y hy => hent y (List.mem_cons_of_mem _ hy))
          (List.chain'_cons'.mp hchain).2 ?_
        intro y _ _
        exact ⟨rfl, rfl⟩
      rw [hrest]

end CleanLoop

section NormalizerBridge

/-- Drop the single trailing blank entry when present: the effect that the
final str.strip of line 29 has on the joined cleaned lines. -/
def dropTrailBlank (l : List String) : List String :=
  if l.getLast? = some "" then l.dropLast else l

lemma mem_of_getLast?_eq {l : List α} {a : α} (h : l.getLast? = some a) : a ∈ l := by
  obtain ⟨hne, hx⟩ := List.mem_getLast?_eq_getLast (l := l) (x := a) (by simp [h])
  rw [hx]
  exact List.getLast_mem hne

lemma mem_of_head?_eq {l : List α} {a : α} (h : l.head? = some a) : a ∈ l := by
  cases l with
  | nil => simp at h
  | cons x t =>
    simp at h
    rw [h]
    exact List.mem_cons_self _ _

lemma entry_ends {x : String} (hfix : stripChars x.data = x.data) (hne : x.data ≠ []) :
    ∃ c d, x.data.head? = some c ∧ isPyWs c = false ∧
      x.data.getLast? = some d ∧ isPyWs d = false := by
  have hh : ∃ c, x.data.head? = some c := by
    cases hd : x.data with
    | nil => exact absurd hd hne
    | cons a t => exact ⟨a, rfl⟩
  obtain ⟨c, hc⟩ := hh
  have hl : ∃ d, x.data.getLast? = some d :=
    ⟨_, List.getLast?_eq_getLast_of_ne_nil hne⟩
  obtain ⟨d, hd⟩ := hl
  refine ⟨c, d, hc, ?_, hd, ?_⟩
  · exact stripChars_head? (by rw [hfix]; exact hc)
  · exact stripChars_getLast? (by rw [hfix]; exact hd)

lemma stripChars_append_nl {M : List Char} {c d : Char}
    (hc : M.head? = some c) (hwc : isPyWs c = false)
    (hd : M.getLast? = some d) (hwd : isPyWs d = false) :
    stripChars (M ++ ['\n']) = M := by
  have hMne : M ≠ [] := by intro h; rw [h] at hc; simp at hc
  unfold stripChars
  rw [dropWhile_eq_self_of_head (l := M ++ ['\n'])
    (by rw [List.head?_append_of_ne_nil _ hMne]; exact hc) hwc]
  rw [List.reverse_append, show (['\n'].reverse ++ M.reverse) = '\n' :: M.reverse from by simp]
  rw [List.dropWhile_cons, show isPyWs '\n' = true from by decide]
  simp only [if_pos rfl]
  rw [dropWhile_eq_self_of_head (by rw [List.head?_reverse]; exact hd) hwd]
  exact List.reverse_reverse M

lemma joinNl_head?_of_head {cl : List String} {x : String}
    (hx : cl.head? = some x) (hne : x.data ≠ []) :
    (joinNl (cl.map String.data)).head? = x.data.head? := by
  cases cl with
  | nil => simp at hx
  | cons a t =>
    simp at hx
    subst hx
    exact joinNl_head? _ _ hne

lemma joinNl_getLast?_of_getLast {cl : List String} {z : String}
    (hz : cl.getLast? = some z) (hne : z.data ≠ []) :
    (joinNl (cl.map String.data)).getLast? = z.data.getLast? := by
  apply joinNl_getLast?
  · rw [List.getLast?_map, hz]
    rfl
  · exact hne

lemma entry_facts {cl : List String}
    (hent : ∀ x ∈ cl, x = "" ∨ (stripChars x.data = x.data ∧ x.data ≠ []))
    {x : String} (hx : x ∈ cl) (hxne : x ≠ "") :
    ∃ c d, x.data.head? = some c ∧ isPyWs c = false ∧
      x.data.getLast? = some d ∧ isPyWs d = false := by
  rcases hent x hx with h | ⟨hfix, hne⟩
  · exact absurd h hxne
  · exact entry_ends hfix hne

lemma pyStrip_pyJoin (cl : List String)
    (hhead : ∀ x, cl.head? = some x → x ≠ "")
    (hent : ∀ x ∈ cl, x = "" ∨ (stripChars x.data = x.data ∧ x.data ≠ []))
    (hchain : List.Chain' (fun a b => ¬(a = "" ∧ b = "")) cl) :
    pyStrip (pyJoin "\n" cl) = pyJoin "\n" (dropTrailBlank cl) := by
  rcases hcl : cl.getLast? with _ | z
  · have hnil : cl = [] := List.getLast?_eq_none_iff.mp hcl
    subst hnil
    decide
  · have hclne : cl ≠ [] := by
      intro h
      rw [h] at hcl
      simp at hcl
    obtain ⟨x₀, hx₀⟩ : ∃ x, cl.head? = some x := by
      cases cl with
      | nil => exact absurd rfl hclne
      | cons a t => exact ⟨a, rfl⟩
    have hx₀ne : x₀ ≠ "" := hhead x₀ hx₀
    have hx₀mem : x₀ ∈ cl := mem_of_head?_eq hx₀
    obtain ⟨c, _, hc, hwc, _, _⟩ := entry_facts hent hx₀mem hx₀ne
    have hx₀dne : x₀.data ≠ [] := str_ne_empty_iff.mp hx₀ne
    by_cases hz : z = ""
    · subst hz
      have hg : cl.getLast hclne = "" := by
        have heq := List.getLast?_eq_getLast_of_ne_nil hclne
        rw [hcl] at heq
        exact (Option.some.inj heq).symm
      have hdecomp : cl.dropLast ++ [""] = cl := by
        have hdg := List.dropLast_append_getLast hclne
        rw [hg] at hdg
        exact hdg
      have hinitne : cl.dropLast ≠ [] := by
        intro h
        rw [h] at hdecomp
        rw [← hdecomp] at hx₀
        simp at hx₀
        exact hx₀ne (by rw [hx₀])
      have hdtb : dropTrailBlank cl = cl.dropLast := by
        unfold dropTrailBlank
        rw [if_pos hcl]
      obtain ⟨y, hy⟩ : ∃ y, cl.dropLast.getLast? = some y := by
        cases hdl : cl.dropLast with
        | nil => exact absurd hdl hinitne
        | cons a t => exact ⟨(a :: t).getLast (by simp), List.getLast?_eq_getLast_of_ne_nil (by simp)⟩
      have hyne : y ≠ "" := by
        have hch : List.Chain' (fun a b => ¬(a = "" ∧ b = "")) (cl.dropLast ++ [""]) := by
          rw [hdecomp]
          exact hchain
        have hrel := (List.chain'_append.mp hch).2.2
        intro hye
        exact hrel y (by simp [hy]) "" (by simp) ⟨hye, rfl⟩
      have hymem : y ∈ cl := (List.dropLast_sublist cl).subset (mem_of_getLast?_eq hy)
      obtain ⟨_, d, _, _, hd, hwd⟩ := entry_facts hent hymem hyne
      have hydne : y.data ≠ [] := str_ne_empty_iff.mp hyne
      have hx₀init : cl.dropLast.head? = some x₀ := by
        have happ := @List.head?_append_of_ne_nil _ cl.dropLast [""] hinitne
        rw [hdecomp] at happ
        rw [← happ]
        exact hx₀
      apply str_ext
      rw [hdtb]
      show stripChars ((pyJoin "\n" cl).data) = (pyJoin "\n" cl.dropLast).data
      rw [pyJoin_nl_data, pyJoin_nl_data]
      have hmap : cl.map String.data = cl.dropLast.map String.data ++ [[]] := by
        rw [← hdecomp]
        simp
      rw [hmap]
      rw [joinNl_concat_nil (cl.dropLast.map String.data)
        (fun hnil => hinitne (List.map_eq_nil_iff.mp hnil))]
      apply stripChars_append_nl (c := c) (d := d)
      · rw [joinNl_head?_of_head hx₀init hx₀dne]
        exact hc
      · exact hwc
      · rw [joinNl_getLast?_of_getLast hy hydne]
        exact hd
      · exact hwd
    · have hzmem : z ∈ cl := mem_of_getLast?_eq hcl
      obtain ⟨_, d, _, _, hd, hwd⟩ := entry_facts hent hzmem hz
      have hzdne : z.data ≠ [] := str_ne_empty_iff.mp hz
      have hdtb : dropTrailBlank cl = cl := by
        unfold dropTrailBlank
        rw [if_neg (by rw [hcl]; intro h; exact hz (Option.some.inj h))]
      rw [hdtb]
      apply str_ext
      show stripChars ((pyJoin "\n" cl).data) = (pyJoin "\n" cl).data
      rw [pyJoin_nl_data]
      apply stripChars_eq_self (c := c) (d := d)
      · rw [joinNl_head?_of_head hx₀ hx₀dne]
        exact hc
      · exact hwc
      · rw [joinNl_getLast?_of_getLast hcl hzdne]
        exact hd
      · exact hwd

lemma pySplitlines_pyJoin (dp : List String)
    (hnl : ∀ x ∈ dp, '\n' ∉ x.data)
    (hlast : ∀ x, dp.getLast? = some x → x ≠ "") :
    pySplitlines (pyJoin "\n" dp) = dp := by
  cases hdp : dp with
  | nil => decide
  | cons a t =>
    rw [← hdp]
    have hdpne : dp ≠ [] := by rw [hdp]; simp
    have hsplit : splitNl ((pyJoin "\n" dp).data) = dp.map String.data := by
      rw [pyJoin_nl_data]
      apply splitNl_joinNl
      · intro m hm
        obtain ⟨x, hx, hxm⟩ := List.mem_map.mp hm
        rw [← hxm]
        exact hnl x hx
      · simpa using hdpne
    obtain ⟨z, hzl⟩ : ∃ z, dp.getLast? = some z := by
      rw [hdp]
      exact ⟨_, List.getLast?_eq_getLast_of_ne_nil (by simp)⟩
    have hzne : z ≠ "" := hlast z hzl
    show (if ((splitNl ((pyJoin "\n" dp).data)).map fun l => (⟨l⟩ : String)).getLast? = some ""
      then ((splitNl ((pyJoin "\n" dp).data)).map fun l => (⟨l⟩ : String)).dropLast
      else (splitNl ((pyJoin "\n" dp).data)).map fun l => (⟨l⟩ : String)) = dp
    have hparts : ((splitNl ((pyJoin "\n" dp).data)).map fun l => (⟨l⟩ : String)) = dp := by
      rw [hsplit, List.map_map]
      have : (fun l => (⟨l⟩ : String)) ∘ String.data = id := by
        funext s
        rfl
      rw [this, List.map_id]
    rw [hparts, if_neg]
    rw [hzl]
    intro h
    exact hzne (Option.some.inj h)

end NormalizerBridge

section NormalizerMaster

lemma mem_pySplitlines_no_nl (s : String) : ∀ x ∈ pySplitlines s, '\n' ∉ x.data := by
  intro x hx
  have hx' : x ∈ (splitNl s.data).map fun l => (⟨l⟩ : String) := by
    simp only [pySplitlines] at hx
    split at hx
    · exact (List.dropLast_sublist _).subset hx
    · exact hx
  obtain ⟨m, hm, hmx⟩ := List.mem_map.mp hx'
  rw [← hmx]
  exact mem_splitNl_no_nl s.data m hm

lemma cleanLines_entries (raw : String) :
    ∀ x ∈ cleanLines (pySplitlines raw),
      x = "" ∨ (stripChars x.data = x.data ∧ x.data ≠ []) := by
  intro x hx
  rw [cleanLines_eq_cleanRec] at hx
  rcases mem_cleanRec _ _ _ x hx with h | ⟨r, _, hxr, hxne⟩
  · exact Or.inl h
  · refine Or.inr ⟨?_, str_ne_empty_iff.mp hxne⟩
    rw [hxr]
    show stripChars (stripChars r.data) = stripChars r.data
    exact stripChars_idem r.data

lemma cleanLines_no_nl (raw : String) :
    ∀ x ∈ cleanLines (pySplitlines raw), '\n' ∉ x.data := by
  intro x hx
  rw [cleanLines_eq_cleanRec] at hx
  rcases mem_cleanRec _ _ _ x hx with h | ⟨r, hr, hxr, _⟩
  · rw [h]
    simp
  · intro hmem
    rw [hxr] at hmem
    have hmem' : '\n' ∈ stripChars r.data := hmem
    exact mem_pySplitlines_no_nl raw r hr (mem_stripChars hmem')

lemma dropTrailBlank_sub {l : List String} {x : String} (hx : x ∈ dropTrailBlank l) :
    x ∈ l := by
  unfold dropTrailBlank at hx
  split at hx
  · exact (List.dropLast_sublist _).subset hx
  · exact hx

lemma head?_dropLast {l : List α} {x : α} (hx : l.dropLast.head? = some x) :
    l.head? = some x := by
  cases l with
  | nil => simp at hx
  | cons a t =>
    cases t with
    | nil => simp at hx
    | cons b u =>
      have hx' : (a :: (b :: u).dropLast).head? = some x := hx
      simp at hx'
      simp [hx']

lemma head?_dropTrailBlank {l : List String} {x : String}
    (hx : (dropTrailBlank l).head? = some x) : l.head? = some x := by
  unfold dropTrailBlank at hx
  split at hx
  · exact head?_dropLast hx
  · exact hx

lemma chain'_dropLast {R : α → α → Prop} {l : List α} (h : List.Chain' R l) :
    List.Chain' R l.dropLast := by
  by_cases hlne : l = []
  · rw [hlne]
    simp
  · have hdecomp := List.dropLast_append_getLast hlne
    rw [← hdecomp] at h
    exact (List.chain'_append.mp h).1

lemma chain'_dropTrailBlank {R : String → String → Prop} {l : List String}
    (h : List.Chain' R l) : List.Chain' R (dropTrailBlank l) := by
  unfold dropTrailBlank
  split
  · exact chain'_dropLast h
  · exact h

lemma getLast?_dropTrailBlank {l : List String}
    (hchain : List.Chain' (fun a b => ¬(a = "" ∧ b = "")) l) :
    ∀ x, (dropTrailBlank l).getLast? = some x → x ≠ "" := by
  intro x hx
  unfold dropTrailBlank at hx
  by_cases hz : l.getLast? = some ""
  · rw [if_pos hz] at hx
    have hlne : l ≠ [] := by
      intro h
      rw [h] at hz
      simp at hz
    have hg : l.getLast hlne = "" := by
      have heq := List.getLast?_eq_getLast_of_ne_nil hlne
      rw [hz] at heq
      exact (Option.some.inj heq).symm
    have hdecomp : l.dropLast ++ [""] = l := by
      have hdg := List.dropLast_append_getLast hlne
      rw [hg] at hdg
      exact hdg
    have hch : List.Chain' (fun a b => ¬(a = "" ∧ b = "")) (l.dropLast ++ [""]) := by
      rw [hdecomp]
      exact hchain
    have hrel := (List.chain'_append.mp hch).2.2
    intro hxe
    exact hrel x (by simp [hx]) "" (by simp) ⟨hxe, rfl⟩
  · rw [if_neg hz] at hx
    intro hxe
    rw [hxe] at hx
    exact hz hx

lemma normalized_lines_eq (raw : String) :
    pySplitlines (pyStrip (pyJoin "\n" (cleanLines (pySplitlines raw)))) =
      dropTrailBlank (cleanLines (pySplitlines raw)) := by
  have hhead : ∀ x, (cleanLines (pySplitlines raw)).head? = some x → x ≠ "" := by
    intro x hx
    rw [cleanLines_eq_cleanRec] at hx
    exact head?_cleanRec_false _ _ _ hx
  have hchain : List.Chain' (fun a b => ¬(a = "" ∧ b = "")) (cleanLines (pySplitlines raw)) := by
    rw [cleanLines_eq_cleanRec]
    exact chain'_cleanRec _ _ _
  rw [pyStrip_pyJoin _ hhead (cleanLines_entries raw) hchain]
  apply pySplitlines_pyJoin
  · intro x hx
    exact cleanLines_no_nl raw x (dropTrailBlank_sub hx)
  · exact getLast?_dropTrailBlank hchain

end NormalizerMaster

/-- Output lines never begin with a blank line. -/
def noLeadingBlankLine (l : List String) : Prop := ∀ s, l.head? = some s → s ≠ ""

/-- Output lines never end with a blank line. -/
def noTrailingBlankLine (l : List String) : Prop := ∀ s, l.getLast? = some s → s ≠ ""

/-- No two consecutive output lines are both blank (every run of blank raw
lines collapses to at most one blank output line). -/
def noDoubleBlankLine (l : List String) : Prop :=
  List.Chain' (fun a b => ¬(a = "" ∧ b = "")) l

/-- C2: for every input document tree, the text returned by the normalizer
clean_text_preserving_gaps never starts or ends with an empty line and never
contains two consecutive empty lines; every run of one-or-more blank raw
lines is collapsed to at most one blank output line. -/
theorem normalizer_blank_line_invariants (soup : List Node) :
    noLeadingBlankLine (pySplitlines (clean_text_preserving_gaps soup)) ∧
    noTrailingBlankLine (pySplitlines (clean_text_preserving_gaps soup)) ∧
    noDoubleBlankLine (pySplitlines (clean_text_preserving_gaps soup)) := by
  have hdef : clean_text_preserving_gaps soup =
      pyStrip (pyJoin "\n" (cleanLines (pySplitlines (get_text "\n" (markGapsList soup))))) := rfl
  rw [hdef, normalized_lines_eq]
  have hchain : List.Chain' (fun a b => ¬(a = "" ∧ b = ""))
      (cleanLines (pySplitlines (get_text "\n" (markGapsList soup)))) := by
    rw [cleanLines_eq_cleanRec]
    exact chain'_cleanRec _ _ _
  refine ⟨?_, getLast?_dropTrailBlank hchain, chain'_dropTrailBlank hchain⟩
  intro s hs
  have hs' := head?_dropTrailBlank hs
  rw [cleanLines_eq_cleanRec] at hs'
  exact head?_cleanRec_false _ _ _ hs'

/-- C3: the blank-collapsing line cleaning of lines 17-27 is idempotent: on
the cleaned line sequence it returns that sequence unchanged, for any input
line sequence. -/
theorem normalizer_line_collapse_idempotent (ls : List String) :
    cleanLines (cleanLines ls) = cleanLines ls := by
  rw [cleanLines_eq_cleanRec (cleanLines ls)]
  apply cleanRec_fixpoint
  · intro x hx hxne
    rw [cleanLines_eq_cleanRec] at hx
    rcases mem_cleanRec _ _ _ x hx with h | ⟨r, _, hxr, _⟩
    · exact absurd h hxne
    · rw [hxr]
      exact pyStrip_idem r
  · rw [cleanLines_eq_cleanRec]
    exact chain'_cleanRec _ _ _
  · intro x hx hxe
    rw [cleanLines_eq_cleanRec] at hx
    exact absurd hxe (head?_cleanRec_false _ _ _ hx)

/-- C5: on the document tree of the fragment with a Hello paragraph, an
empty-line marker element and a World paragraph, the normalizer returns
exactly the text Hello, blank line, World. -/
theorem normalizer_gap_marker_example :
    clean_text_preserving_gaps
      [Node.el "p" [] [Node.text "Hello"],
       Node.el "div" ["empty-line"] [],
       Node.el "p" [] [Node.text "World"]] = "Hello\n\nWorld" := by decide

section SpineResolver

lemma resolveDoc_id {b : Package} {e : SpineEntry} {it : Item}
    (h : resolveDoc b e = some it) : it.id = e.entryId := by
  unfold resolveDoc at h
  cases hfind : b.get_item_with_id e.entryId with
  | none =>
    rw [hfind] at h
    simp at h
  | some item =>
    rw [hfind] at h
    have h' : (if (item.itemType == ITEM_DOCUMENT) = true then some item else none) =
      some it := h
    by_cases ht : (item.itemType == ITEM_DOCUMENT) = true
    · rw [if_pos ht] at h'
      have heq : item = it := Option.some.inj h'
      subst heq
      have hf : b.items.find? (fun x => x.id == e.entryId) = some item := hfind
      simpa using List.find?_some hf
    · rw [if_neg ht] at h'
      simp at h'

lemma resolveDoc_mem {b : Package} {e : SpineEntry} {it : Item}
    (h : resolveDoc b e = some it) : it ∈ b.items ∧ it.itemType = ITEM_DOCUMENT := by
  unfold resolveDoc at h
  cases hfind : b.get_item_with_id e.entryId with
  | none =>
    rw [hfind] at h
    simp at h
  | some item =>
    rw [hfind] at h
    have h' : (if (item.itemType == ITEM_DOCUMENT) = true then some item else none) =
      some it := h
    by_cases ht : (item.itemType == ITEM_DOCUMENT) = true
    · rw [if_pos ht] at h'
      have heq : item = it := Option.some.inj h'
      subst heq
      have hf : b.items.find? (fun x => x.id == e.entryId) = some item := hfind
      exact ⟨List.mem_of_find?_eq_some hf, by simpa using ht⟩
    · rw [if_neg ht] at h'
      simp at h'

lemma foldl_spineStep (b : Package) : ∀ (sp : List SpineEntry) (st : List String × List Item),
    sp.foldl (spineStep b) st =
      (((sp.filterMap (resolveDoc b)).map Item.id).reverse ++ st.1,
       st.2 ++ sp.filterMap (resolveDoc b)) := by
  intro sp
  induction sp with
  | nil => intro st; simp
  | cons e sp ih =>
    intro st
    show sp.foldl (spineStep b) (spineStep b st e) = _
    cases hres : resolveDoc b e with
    | none =>
      have hstep : spineStep b st e = st := by
        unfold resolveDoc at hres
        cases hfind : b.get_item_with_id e.entryId with
        | none => simp [spineStep, hfind]
        | some item =>
          rw [hfind] at hres
          have hres' : (if (item.itemType == ITEM_DOCUMENT) = true then some item else none) =
            none := hres
          by_cases ht : (item.itemType == ITEM_DOCUMENT) = true
          · rw [if_pos ht] at hres'
            simp at hres'
          · simp [spineStep, hfind, ht]
      rw [hstep, ih st]
      simp [List.filterMap_cons, hres]
    | some it =>
      have hid : it.id = e.entryId := resolveDoc_id hres
      have hstep : spineStep b st e = (e.entryId :: st.1, st.2 ++ [it]) := by
        unfold resolveDoc at hres
        cases hfind : b.get_item_with_id e.entryId with
        | none =>
          rw [hfind] at hres
          simp at hres
        | some item =>
          rw [hfind] at hres
          have hres' : (if (item.itemType == ITEM_DOCUMENT) = true then some item else none) =
            some it := hres
          by_cases ht : (item.itemType == ITEM_DOCUMENT) = true
          · rw [if_pos ht] at hres'
            have heq : item = it := Option.some.inj hres'
            subst heq
            simp [spineStep, hfind, ht]
          · rw [if_neg ht] at hres'
            simp at hres'
      rw [hstep, ih _]
      simp [List.filterMap_cons, hres, hid]

lemma spinePass_eq (b : Package) :
    spinePass b = (((b.spine.filterMap (resolveDoc b)).map Item.id).reverse,
      b.spine.filterMap (resolveDoc b)) := by
  unfold spinePass
  rw [foldl_spineStep b b.spine ([], [])]
  simp

lemma iter_eq (b : Package) :
    iter_documents_in_order b =
      b.spine.filterMap (resolveDoc b) ++
        (b.get_items_of_type ITEM_DOCUMENT).filter
          (fun it => !((b.spine.filterMap (resolveDoc b)).map Item.id).contains it.id) := by
  unfold iter_documents_in_order
  rw [spinePass_eq]
  congr 1
  apply List.filter_congr
  intro it _
  have hrc : ((b.spine.filterMap (resolveDoc b)).map Item.id).reverse.contains it.id =
      ((b.spine.filterMap (resolveDoc b)).map Item.id).contains it.id := by
    simp [List.contains, List.elem_eq_mem]
  rw [hrc]

lemma iter_eq' (items : List Item) (sp : List SpineEntry) :
    iter_documents_in_order ⟨sp, items⟩ =
      sp.filterMap (resolveDoc ⟨[], items⟩) ++
        (Package.get_items_of_type ⟨[], items⟩ ITEM_DOCUMENT).filter
          (fun it => !((sp.filterMap (resolveDoc ⟨[], items⟩)).map Item.id).contains it.id) :=
  iter_eq ⟨sp, items⟩

lemma resolveDoc_ids_sublist (b : Package) : ∀ (sp : List SpineEntry),
    List.Sublist ((sp.filterMap (resolveDoc b)).map Item.id) (sp.map SpineEntry.entryId) := by
  intro sp
  induction sp with
  | nil => simp
  | cons e sp ih =>
    cases hres : resolveDoc b e with
    | none =>
      rw [List.filterMap_cons, hres]
      exact List.Sublist.cons _ ih
    | some it =>
      rw [List.filterMap_cons, hres]
      have hid : it.id = e.entryId := resolveDoc_id hres
      show List.Sublist (it.id :: (sp.filterMap (resolveDoc b)).map Item.id)
        (e.entryId :: sp.map SpineEntry.entryId)
      rw [hid]
      exact List.Sublist.cons₂ _ ih

end SpineResolver

/-- Items used in the concrete spine packages below. -/
def itemA : Item := ⟨"A", ITEM_DOCUMENT, []⟩

/-- Second document item. -/
def itemB : Item := ⟨"B", ITEM_DOCUMENT, []⟩

/-- Third document item, not referenced by any spine below. -/
def itemC : Item := ⟨"C", ITEM_DOCUMENT, []⟩

/-- A non-document (stylesheet) item. -/
def itemCss : Item := ⟨"css", 1, []⟩

/-- Package with declared spine A, B and an extra document C. -/
def exampleABC : Package := ⟨[.bare "A", .bare "B"], [itemC, itemA, itemB]⟩

/-- Package whose spine references the same identifier twice. -/
def dupBook : Package := ⟨[.bare "A", .bare "A"], [itemA]⟩

/-- Package for witnesses: documents A and B, a stylesheet, and a spine with
a tuple entry, a stylesheet reference and a dangling reference. -/
def wBook : Package :=
  ⟨[.tup "A" ["yes"], .bare "css", .bare "missing", .bare "B"], [itemA, itemCss, itemB]⟩

/-- C1 counterexample: on a spine that references the identifier A twice,
the resolver emits document A twice, so the resolved sequence does not
contain every document exactly once. -/
theorem spine_resolver_duplicate_counterexample :
    ((iter_documents_in_order dupBook).map Item.id).count "A" = 2 := by decide

/-- C1 (amended): when item identifiers are unique in the package, as the
data model requires, and the spine references pairwise distinct identifiers,
the resolved sequence contains every document-type item of the package
exactly once and contains nothing else; a spine that repeats an identifier
instead emits that document once per repetition. -/
theorem spine_resolver_exactly_once (b : Package)
    (hitems : (b.items.map Item.id).Nodup)
    (hspine : (b.spine.map SpineEntry.entryId).Nodup) :
    ((iter_documents_in_order b).map Item.id).Nodup ∧
    (∀ it ∈ b.items, it.itemType = ITEM_DOCUMENT →
      ((iter_documents_in_order b).map Item.id).count it.id = 1) ∧
    (∀ it ∈ iter_documents_in_order b, it ∈ b.items ∧ it.itemType = ITEM_DOCUMENT) := by
  have hA : ((b.spine.filterMap (resolveDoc b)).map Item.id).Nodup :=
    hspine.sublist (resolveDoc_ids_sublist b b.spine)
  have hDsub : List.Sublist
      (((b.get_items_of_type ITEM_DOCUMENT).filter
        (fun it => !((b.spine.filterMap (resolveDoc b)).map Item.id).contains it.id)).map Item.id)
      (b.items.map Item.id) :=
    ((List.filter_sublist _).trans (List.filter_sublist _)).map Item.id
  have hB : (((b.get_items_of_type ITEM_DOCUMENT).filter
      (fun it => !((b.spine.filterMap (resolveDoc b)).map Item.id).contains it.id)).map
        Item.id).Nodup := hitems.sublist hDsub
  have hdisj : List.Disjoint
      ((b.spine.filterMap (resolveDoc b)).map Item.id)
      (((b.get_items_of_type ITEM_DOCUMENT).filter
        (fun it => !((b.spine.filterMap (resolveDoc b)).map Item.id).contains it.id)).map
          Item.id) := by
    intro x hxA hxB
    obtain ⟨it, hit, hitx⟩ := List.mem_map.mp hxB
    have hfil := (List.mem_filter.mp hit).2
    rw [Bool.not_eq_true'] at hfil
    have hc : ((b.spine.filterMap (resolveDoc b)).map Item.id).contains it.id = true := by
      rw [hitx]
      exact List.elem_iff.mpr hxA
    rw [hc] at hfil
    exact absurd hfil (by simp)
  have hmapapp : (iter_documents_in_order b).map Item.id =
      (b.spine.filterMap (resolveDoc b)).map Item.id ++
        ((b.get_items_of_type ITEM_DOCUMENT).filter
          (fun it => !((b.spine.filterMap (resolveDoc b)).map Item.id).contains it.id)).map
            Item.id := by
    rw [iter_eq b, List.map_append]
  have hnodup : ((iter_documents_in_order b).map Item.id).Nodup := by
    rw [hmapapp]
    exact List.Nodup.append hA hB hdisj
  refine ⟨hnodup, ?_, ?_⟩
  · intro it hit hdoc
    have hmem : it.id ∈ (iter_documents_in_order b).map Item.id := by
      rw [hmapapp]
      by_cases hc : ((b.spine.filterMap (resolveDoc b)).map Item.id).contains it.id = true
      · apply List.mem_append_left
        exact List.elem_iff.mp hc
      · apply List.mem_append_right
        apply List.mem_map.mpr
        refine ⟨it, List.mem_filter.mpr ⟨?_, ?_⟩, rfl⟩
        · exact List.mem_filter.mpr ⟨hit, by simpa using hdoc⟩
        · simpa using hc
    exact List.count_eq_one_of_mem hnodup hmem
  · intro it hit
    rw [iter_eq b] at hit
    rcases List.mem_append.mp hit with h | h
    · obtain ⟨e, _, hres⟩ := List.mem_filterMap.mp h
      exact resolveDoc_mem hres
    · have hd := (List.mem_filter.mp h).1
      have hd2 := List.mem_filter.mp hd
      exact ⟨hd2.1, by simpa using hd2.2⟩

/-- C1 witness: the amended exactly-once guarantee evaluated on a concrete
package with two documents, a stylesheet and a dangling spine reference. -/
theorem spine_resolver_exactly_once_witness :
    ((iter_documents_in_order wBook).map Item.id).Nodup ∧
    (∀ it ∈ wBook.items, it.itemType = ITEM_DOCUMENT →
      ((iter_documents_in_order wBook).map Item.id).count it.id = 1) ∧
    (∀ it ∈ iter_documents_in_order wBook, it ∈ wBook.items ∧ it.itemType = ITEM_DOCUMENT) :=
  spine_resolver_exactly_once wBook (by decide) (by decide)

/-- C4: the resolved sequence is the spine-resolved items in declared order
followed by the document items missing from the spine, in enumeration
order; in particular a package with spine A, B and an extra document C
resolves to A, B, C. -/
theorem spine_resolver_order :
    (∀ b : Package,
      iter_documents_in_order b =
        b.spine.filterMap (resolveDoc b) ++
          (b.get_items_of_type ITEM_DOCUMENT).filter
            (fun it => !((b.spine.filterMap (resolveDoc b)).map Item.id).contains it.id)) ∧
    (iter_documents_in_order exampleABC).map Item.id = ["A", "B", "C"] :=
  ⟨iter_eq, by decide⟩

/-- C7: a spine entry whose identifier misses the lookup, or resolves to a
non-document item, contributes nothing to the resolved sequence and raises
no error: removing it from the spine leaves the output unchanged, and the
remaining entries are still processed. -/
theorem spine_skip_nondocument (items : List Item) (pre post : List SpineEntry) (e : SpineEntry)
    (h : (Package.mk (pre ++ e :: post) items).get_item_with_id e.entryId = none ∨
      ∀ it, (Package.mk (pre ++ e :: post) items).get_item_with_id e.entryId = some it →
        it.itemType ≠ ITEM_DOCUMENT) :
    iter_documents_in_order ⟨pre ++ e :: post, items⟩ =
      iter_documents_in_order ⟨pre ++ post, items⟩ := by
  have hres : resolveDoc ⟨[], items⟩ e = none := by
    unfold resolveDoc
    rcases h with h | h
    · rw [show (Package.get_item_with_id ⟨[], items⟩ e.entryId) =
        (Package.get_item_with_id ⟨pre ++ e :: post, items⟩ e.entryId) from rfl, h]
    · cases hfind : Package.get_item_with_id ⟨[], items⟩ e.entryId with
      | none => rfl
      | some it =>
        have hnd := h it hfind
        simp [hnd]
  rw [iter_eq' items (pre ++ e :: post), iter_eq' items (pre ++ post)]
  rw [List.filterMap_append, List.filterMap_append, List.filterMap_cons, hres]

/-- C7 witness: a dangling spine reference between two document references
is skipped without effect. -/
theorem spine_skip_nondocument_witness :
    iter_documents_in_order ⟨[SpineEntry.bare "A", SpineEntry.bare "missing"],
      [itemA, itemCss, itemB]⟩ =
      iter_documents_in_order ⟨[SpineEntry.bare "A"], [itemA, itemCss, itemB]⟩ :=
  spine_skip_nondocument [itemA, itemCss, itemB] [SpineEntry.bare "A"] []
    (SpineEntry.bare "missing") (Or.inl rfl)

/-- C8: a bare identifier and a composite record with the same first element
carry the same identifier, resolve to the same item, and are interchangeable
in any spine position without changing the resolved sequence. -/
theorem spine_entry_shapes (items : List Item) (pre post : List SpineEntry)
    (i : String) (rest : List String) :
    SpineEntry.entryId (SpineEntry.tup i rest) = SpineEntry.entryId (SpineEntry.bare i) ∧
    Package.get_item_with_id ⟨pre ++ SpineEntry.tup i rest :: post, items⟩
        (SpineEntry.entryId (SpineEntry.tup i rest)) =
      Package.get_item_with_id ⟨pre ++ SpineEntry.bare i :: post, items⟩
        (SpineEntry.entryId (SpineEntry.bare i)) ∧
    iter_documents_in_order ⟨pre ++ SpineEntry.tup i rest :: post, items⟩ =
      iter_documents_in_order ⟨pre ++ SpineEntry.bare i :: post, items⟩ := by
  refine ⟨rfl, rfl, ?_⟩
  rw [iter_eq' items (pre ++ SpineEntry.tup i rest :: post),
    iter_eq' items (pre ++ SpineEntry.bare i :: post)]
  have hx : (pre ++ SpineEntry.tup i rest :: post).filterMap (resolveDoc ⟨[], items⟩) =
      (pre ++ SpineEntry.bare i :: post).filterMap (resolveDoc ⟨[], items⟩) := by
    rw [List.filterMap_append, List.filterMap_append, List.filterMap_cons, List.filterMap_cons]
    rfl
  rw [hx]

lemma foldl_append_map (f : α → β) : ∀ (l : List α) (acc : List β),
    l.foldl (fun a x => a ++ [f x]) acc = acc ++ l.map f := by
  intro l
  induction l with
  | nil => intro acc; simp
  | cons x xs ih =>
    intro acc
    show xs.foldl _ (acc ++ [f x]) = _
    rw [ih]
    simp

/-- C6: the converted document for a package is exactly the normalized text
blocks of the resolved items, in resolved order, joined by a double line
break. -/
theorem converted_document_join (book : Package) :
    epub_to_txt book =
      pyJoin "\n\n" ((iter_documents_in_order book).map
        (fun it => clean_text_preserving_gaps it.content)) := by
  unfold epub_to_txt
  rw [foldl_append_map]
  simp

section BatchMode

lemma lexLe_total : ∀ a b : List Char, lexLe a b = true ∨ lexLe b a = true := by
  intro a
  induction a with
  | nil => intro b; left; rfl
  | cons x xs ih =>
    intro b
    cases b with
    | nil => right; rfl
    | cons y ys =>
      by_cases h1 : x.toNat < y.toNat
      · left
        simp [lexLe, h1]
      · by_cases h2 : y.toNat < x.toNat
        · right
          simp [lexLe, h2]
        · rcases ih ys with h | h
          · left
            simp [lexLe, h1, h2, h]
          · right
            simp [lexLe, h1, h2, h]

lemma lexLe_trans : ∀ a b c : List Char,
    lexLe a b = true → lexLe b c = true → lexLe a c = true := by
  intro a
  induction a with
  | nil => intro b c _ _; rfl
  | cons x xs ih =>
    intro b c hab hbc
    cases b with
    | nil => simp [lexLe] at hab
    | cons y ys =>
      cases c with
      | nil => simp [lexLe] at hbc
      | cons z zs =>
        simp only [lexLe] at hab hbc ⊢
        by_cases hxy : x.toNat < y.toNat
        · by_cases hyz : y.toNat < z.toNat
          · simp [Nat.lt_trans hxy hyz]
          · by_cases hzy : z.toNat < y.toNat
            · simp [hyz, hzy] at hbc
            · have hxz : x.toNat < z.toNat := by omega
              simp [hxz]
        · by_cases hyx : y.toNat < x.toNat
          · simp [hxy, hyx] at hab
          · have hab' : lexLe xs ys = true := by simpa [hxy, hyx] using hab
            by_cases hyz : y.toNat < z.toNat
            · have hxz : x.toNat < z.toNat := by omega
              simp [hxz]
            · by_cases hzy : z.toNat < y.toNat
              · simp [hyz, hzy] at hbc
              · have hbc' : lexLe ys zs = true := by simpa [hyz, hzy] using hbc
                have hxz : ¬x.toNat < z.toNat := by omega
                have hzx : ¬z.toNat < x.toNat := by omega
                simp [hxz, hzx]
                exact ih ys zs hab' hbc'

instance : IsTotal String pyLe :=
  ⟨fun a b => by
    unfold pyLe
    rcases lexLe_total a.data b.data with h | h
    · exact Or.inl h
    · exact Or.inr h⟩

instance : IsTrans String pyLe :=
  ⟨fun a b c hab hbc => lexLe_trans a.data b.data c.data hab hbc⟩

end BatchMode

/-- C9: batch mode selects exactly the regular-file entries whose extension
is .epub up to letter case, processes them in code point ascending name
order, derives each output name from the input stem, and reports an empty
selection instead of failing; the listing b.epub, a.EPUB, notes.txt yields
exactly the jobs a.EPUB to a.txt and b.epub to b.txt, in that order. -/
theorem batch_selection_sorted (entries : List DirEntry) :
    (∀ n, n ∈ epub_files entries ↔
      ∃ e ∈ entries, e.isFile = true ∧ pyLower (path_suffix e.name) = ".epub" ∧ e.name = n) ∧
    List.Pairwise pyLe (epub_files entries) ∧
    convert_directory true entries =
      (if (epub_files entries).isEmpty then BatchResult.noFiles
       else BatchResult.converted ((epub_files entries).map (fun f => (f, outName f)))) ∧
    convert_directory true
      [⟨"b.epub", true⟩, ⟨"a.EPUB", true⟩, ⟨"notes.txt", true⟩] =
      BatchResult.converted [("a.EPUB", "a.txt"), ("b.epub", "b.txt")] := by
  refine ⟨?_, List.sorted_insertionSort pyLe _, rfl, by decide⟩
  intro n
  unfold epub_files
  rw [(List.perm_insertionSort pyLe _).mem_iff]
  constructor
  · intro hn
    obtain ⟨e, he, hen⟩ := List.mem_map.mp hn
    have hmf := List.mem_filter.mp he
    have hb := hmf.2
    simp at hb
    exact ⟨e, hmf.1, hb.1, hb.2, hen⟩
  · rintro ⟨e, he, hf, hsuf, hen⟩
    apply List.mem_map.mpr
    refine ⟨e, List.mem_filter.mpr ⟨he, ?_⟩, hen⟩
    simp [hf, hsuf]

/-- C10: the batch output name is the input stem with a .txt extension, so
two inputs whose names differ only in the case of the extension collide on
one output path, and the write of the input that sorts later survives. -/
theorem batch_output_stem_collision :
    (∀ f g : String, path_stem f = path_stem g → outName f = outName g) ∧
    outName "a.epub" = "a.txt" ∧ outName "a.EPUB" = "a.txt" ∧
    epub_files [⟨"a.epub", true⟩, ⟨"a.EPUB", true⟩] = ["a.EPUB", "a.epub"] ∧
    lastWriter (batchJobs [⟨"a.epub", true⟩, ⟨"a.EPUB", true⟩]) "a.txt" = some "a.epub" := by
  refine ⟨?_, by decide, by decide, by decide, by decide⟩
  intro f g h
  unfold outName
  rw [h]

/-- C10 witness: two names with equal stems map to the same output name. -/
theorem batch_output_stem_collision_witness :
    outName "x.epub" = outName "x.EPUB" :=
  batch_output_stem_collision.1 "x.epub" "x.EPUB" (by decide)

end EpubToTxt
